import Mathlib

/-!
Verification of the meta_agent pipeline (src/run_pipeline.py and
src/tools/run_python.py), shallowly embedded in Lean 4.

Strings are modelled as Lean `String` / `List Char`.  Python dictionary
fields that may be absent are modelled as `Option`.  The three external
effects of one loop iteration (model-gateway calls, executor invocations,
state saves) are recorded in an explicit `CycleCounts` record so that
claims of the form "no model call happens on this path" become provable
equalities.
-/

namespace MetaAgent

/-! ## Basic string scanning utilities (Python `in`, `.lower()`, `.upper()`, `.strip()`) -/

/-- Boolean test that the first list starts the second (model of matching
a literal at the current position of a scan). -/
def isPrefixL : List Char → List Char → Bool
  | [], _ => true
  | _ :: _, [] => false
  | a :: as, b :: bs => a == b && isPrefixL as bs

/-- Model of Python substring containment `needle in hay`. -/
def containsSub (needle : List Char) : List Char → Bool
  | [] => needle.isEmpty
  | c :: rest => isPrefixL needle (c :: rest) || containsSub needle rest

/-- Model of Python `str.lower()` (ASCII case folding, which covers the
trigger phrases of the pipeline). -/
def lowerL (cs : List Char) : List Char := cs.map Char.toLower

/-- Model of Python `str.upper()` (ASCII case folding). -/
def upperL (cs : List Char) : List Char := cs.map Char.toUpper

/-- Characters removed by Python `str.strip()` (ASCII whitespace). -/
def pyIsSpace (c : Char) : Bool :=
  c == ' ' || c == '\t' || c == '\n' || c == '\r' || c == '\x0b' || c == '\x0c'

/-- Model of Python `str.strip()`: drop whitespace from both ends. -/
def stripChars (cs : List Char) : List Char :=
  ((cs.dropWhile pyIsSpace).reverse.dropWhile pyIsSpace).reverse

/-- `str.strip()` lifted to `String`. -/
def pyStrip (s : String) : String := ⟨stripChars s.toList⟩

/-! ## Code extraction (src/run_pipeline.py, `extract_code`)

The source uses `re.findall(r"` ```(?:python)?\n(.*?)``` `", text, re.DOTALL)`:
scan left to right; a match starts with three backticks, optionally the
literal tag `python`, then a newline; the lazily captured body extends to
the nearest later occurrence of three backticks; scanning resumes after
the closing fence. -/

/-- The opening fence with the `python` tag: three backticks, `python`, newline. -/
def fencePy : List Char := "```python\n".toList

/-- The untagged opening fence: three backticks followed by a newline. -/
def fencePlain : List Char := "```\n".toList

/-- The closing fence: three backticks. -/
def fenceClose : List Char := "```".toList

/-- Try to match an opening fence at the current position; on success
return the remaining input after the fence header.  The regex alternative
`(?:python)?` accepts exactly the tag `python` or nothing, and the header
must end with a newline. -/
def matchOpen (cs : List Char) : Option (List Char) :=
  if isPrefixL fencePy cs then some (cs.drop 10)
  else if isPrefixL fencePlain cs then some (cs.drop 4)
  else none

/-- Lazy scan for the closing fence: split the input at the first
occurrence of three backticks, returning the body before it and the
remaining input after it. -/
def findClose : List Char → Option (List Char × List Char)
  | [] => none
  | c :: rest =>
    if isPrefixL fenceClose (c :: rest) then some ([], (c :: rest).drop 3)
    else
      match findClose rest with
      | some (content, after) => some (c :: content, after)
      | none => none

/-- One scanning step of `re.findall`, with explicit fuel (the fuel is a
counter bounding the number of steps; `findBlocks` supplies `cs.length`,
which `findBlocksFuel_congr` below proves sufficient, so the fueled
function agrees with the regex scan on every input). -/
def findBlocksFuel : Nat → List Char → List (List Char)
  | 0, _ => []
  | _, [] => []
  | n + 1, c :: rest =>
    match matchOpen (c :: rest) with
    | some afterOpen =>
      match findClose afterOpen with
      | some (content, after) => content :: findBlocksFuel n after
      | none => findBlocksFuel n rest
    | none => findBlocksFuel n rest

/-- All captured fenced bodies, in order of occurrence: the model of
`re.findall(r"` ```(?:python)?\n(.*?)``` `", text, re.DOTALL)`. -/
def findBlocks (cs : List Char) : List (List Char) := findBlocksFuel cs.length cs

/-- The marker-substring fallback of `extract_code`: the raw text contains
`print(`, `import ` or `open(`. -/
def hasMarker (text : String) : Bool :=
  containsSub ("print(".toList) text.toList
    || containsSub ("import ".toList) text.toList
    || containsSub ("open(".toList) text.toList

/-- Model of `extract_code` from src/run_pipeline.py: last fenced block
trimmed if any fenced block exists, else the whole trimmed text when a
marker substring occurs, else `None`. -/
def extract_code (text : String) : Option String :=
  let blocks := findBlocks text.toList
  match blocks.getLast? with
  | some b => some ⟨stripChars b⟩
  | none => if hasMarker text then some (pyStrip text) else none

/-! ### Fuel adequacy for the fence scan -/

theorem isPrefixL_length (p : List Char) :
    ∀ cs, isPrefixL p cs = true → p.length ≤ cs.length := by
  induction p with
  | nil => intro cs _; simp
  | cons a as ih =>
    intro cs h
    cases cs with
    | nil => simp [isPrefixL] at h
    | cons b bs =>
      simp only [isPrefixL, Bool.and_eq_true] at h
      have := ih bs h.2
      simp only [List.length_cons]
      omega

theorem matchOpen_length (cs out : List Char) (h : matchOpen cs = some out) :
    out.length + 4 ≤ cs.length := by
  unfold matchOpen at h
  by_cases h1 : isPrefixL fencePy cs = true
  · have hl := isPrefixL_length fencePy cs h1
    have : fencePy.length = 10 := by decide
    rw [if_pos h1] at h
    cases h
    simp only [List.length_drop]
    omega
  · rw [if_neg h1] at h
    by_cases h2 : isPrefixL fencePlain cs = true
    · have hl := isPrefixL_length fencePlain cs h2
      have : fencePlain.length = 4 := by decide
      rw [if_pos h2] at h
      cases h
      simp only [List.length_drop]
      omega
    · rw [if_neg h2] at h
      cases h

theorem findClose_length :
    ∀ cs content after, findClose cs = some (content, after) →
      after.length + 3 ≤ cs.length := by
  intro cs
  induction cs with
  | nil => intro content after h; simp [findClose] at h
  | cons c rest ih =>
    intro content after h
    unfold findClose at h
    by_cases hp : isPrefixL fenceClose (c :: rest) = true
    · rw [if_pos hp] at h
      have hl := isPrefixL_length fenceClose (c :: rest) hp
      have : fenceClose.length = 3 := by decide
      cases h
      simp only [List.length_drop]
      omega
    · rw [if_neg hp] at h
      cases hrec : findClose rest with
      | none => rw [hrec] at h; cases h
      | some p =>
        rw [hrec] at h
        cases p with
        | mk content2 after2 =>
          have h2 := Option.some.inj h
          have ha : after2 = after := congrArg Prod.snd h2
          subst ha
          have := ih content2 after2 hrec
          simp only [List.length_cons]
          omega

theorem findBlocksFuel_nil (n : Nat) : findBlocksFuel n [] = [] := by
  cases n <;> rfl

theorem findBlocksFuel_congr :
    ∀ (n m : Nat) (cs : List Char), cs.length ≤ n → cs.length ≤ m →
      findBlocksFuel n cs = findBlocksFuel m cs := by
  intro n
  induction n with
  | zero =>
    intro m cs hn _
    have : cs = [] := by
      cases cs with
      | nil => rfl
      | cons c rest => simp at hn
    subst this
    rw [findBlocksFuel_nil, findBlocksFuel_nil]
  | succ n ih =>
    intro m cs hn hm
    cases cs with
    | nil => rw [findBlocksFuel_nil, findBlocksFuel_nil]
    | cons c rest =>
      cases m with
      | zero => simp at hm
      | succ m =>
        simp only [List.length_cons] at hn hm
        cases hOpen : matchOpen (c :: rest) with
        | none =>
          simp only [findBlocksFuel, hOpen]
          exact ih m rest (by omega) (by omega)
        | some afterOpen =>
          have hOl := matchOpen_length _ _ hOpen
          simp only [List.length_cons] at hOl
          cases hClose : findClose afterOpen with
          | none =>
            simp only [findBlocksFuel, hOpen, hClose]
            exact ih m rest (by omega) (by omega)
          | some p =>
            cases p with
            | mk content after =>
              have hCl := findClose_length afterOpen content after hClose
              simp only [findBlocksFuel, hOpen, hClose]
              rw [ih m after (by omega) (by omega)]

/-- Any fuel at least the input length computes the same block list as
`findBlocks`: the fuel in `findBlocks` is always sufficient. -/
theorem findBlocksFuel_eq_findBlocks (n : Nat) (cs : List Char)
    (h : cs.length ≤ n) : findBlocksFuel n cs = findBlocks cs :=
  findBlocksFuel_congr n cs.length cs h (Nat.le_refl _)

/-! ## Executor (src/run_pipeline.py `run_python`, src/tools/run_python.py `run_python`)

The pipeline executor writes the code to a file and runs it with
`subprocess.run(..., capture_output=True, text=True, timeout=20)` inside
`try/except Exception as e: return str(e)`.  The child process has three
observable outcomes at that call site, modelled by `SubprocResult`: it
completes within the 20-unit timeout (captured stdout and stderr), the
timeout expires (`TimeoutExpired` exception with message `msg`), or the
launch itself fails (`OSError` etc. with message `msg`). -/

inductive SubprocResult where
  | completed (stdout stderr : String)
  | timedOut (msg : String)
  | launchError (msg : String)
deriving DecidableEq, Repr

/-- Model of `run_python` from src/run_pipeline.py: on completion return
`result.stdout + result.stderr`; the `except Exception as e` branch turns
a timeout or launch failure into `str(e)` — a returned value, never a
raised exception (the Lean model is a total function into `String`). -/
def run_python_result : SubprocResult → String
  | .completed stdout stderr => stdout ++ stderr
  | .timedOut msg => msg
  | .launchError msg => msg

/-- Model of `run_python` from src/tools/run_python.py: runs
`subprocess.run(["python3", "-c", code], capture_output=True, text=True)`
(no timeout, no exception handler) and returns `result.stdout` only; the
captured stderr is discarded. -/
def tools_run_python (stdout _stderr : String) : String := stdout

/-! ## Task records and one loop iteration (src/run_pipeline.py main loop)

A task is a YAML mapping; fields that the code reads through `.get` may be
absent and are modelled with `Option`.  `goal` and `id` are read with
mandatory indexing (`current_task["goal"]`), so they are plain fields. -/

structure Task where
  id : String
  goal : String
  status : Option String
  retries : Option Nat
  last_result : Option String
  completed_at : Option String
deriving DecidableEq, Repr

/-- The observable external effects of one loop iteration: the sequence of
model-gateway calls (labelled by the role whose model is used, in call
order), the code strings handed to the executor, the number of
`save_state` calls, and whether the no-pending-tasks idle sleep ran. -/
structure CycleCounts where
  gatewayCalls : List String
  executed : List String
  saves : Nat
  idled : Bool
deriving DecidableEq, Repr

/-- The free-text responses of the environment during one iteration: what
the supervisor model replies to the planning prompt, what the coder model
replies, the subprocess outcome, the review reply of the supervisor, and the
current timestamp string `datetime.now().strftime(...)`. -/
structure CycleEnv where
  supervisor_output : String
  coder_output : String
  exec : SubprocResult
  review : String
  now : String
deriving DecidableEq, Repr

/-- The architectural guard of the main loop:
`"runner" in user_goal.lower() or "framework" in user_goal.lower()`. -/
def goalGuard (goal : String) : Bool :=
  containsSub ("runner".toList) (lowerL goal.toList)
    || containsSub ("framework".toList) (lowerL goal.toList)

/-- Task selection of the main loop: the `for task in tasks` loop breaks at
the first task with `task.get("status") == "pending"`; the model returns
the index of that task (`none` when no task is pending). -/
def findPendingIdx : List Task → Option Nat
  | [] => none
  | t :: ts =>
    if t.status = some "pending" then some 0
    else (findPendingIdx ts).map (· + 1)

/-- The body of one iteration applied to the selected task, following the
source order: architectural guard (skip, save, no model call) → supervisor
plan (one gateway call) and `ARCHITECT_REQUIRED` veto (skip, save) → coder
call → `extract_code`; with no code the task is untouched and nothing is
saved; with code the executor runs and the supervisor review is parsed:
`"COMPLETE" in review.upper()` marks the task done with `last_result` and
`completed_at`, anything else increments `retries` (`.get("retries", 0) + 1`).
Returns the updated task and the effects record. -/
def processTask (t : Task) (env : CycleEnv) : Task × CycleCounts :=
  match goalGuard t.goal with
  | true =>
    ({ t with status := some "skipped" },
     { gatewayCalls := [], executed := [], saves := 1, idled := false })
  | false =>
    match containsSub ("ARCHITECT_REQUIRED".toList) env.supervisor_output.toList with
    | true =>
      ({ t with status := some "skipped" },
       { gatewayCalls := ["supervisor"], executed := [], saves := 1, idled := false })
    | false =>
      match extract_code env.coder_output with
      | none =>
        (t, { gatewayCalls := ["supervisor", "coder"], executed := [], saves := 0,
              idled := false })
      | some code =>
        match containsSub ("COMPLETE".toList) (upperL env.review.toList) with
        | true =>
          ({ t with status := some "done",
                    last_result := some (run_python_result env.exec),
                    completed_at := some env.now },
           { gatewayCalls := ["supervisor", "coder", "supervisor"],
             executed := [code], saves := 1, idled := false })
        | false =>
          ({ t with retries := some (t.retries.getD 0 + 1) },
           { gatewayCalls := ["supervisor", "coder", "supervisor"],
             executed := [code], saves := 1, idled := false })

/-- One full iteration of the `while True` loop over the loaded task list:
select the first pending task; with none, idle (sleep) and restart the
loop at configuration reload with nothing called and nothing saved;
otherwise run the iteration body on the selected task, the mutation of the
task dict appearing as `List.set` at the selected index. -/
def runCycle (tasks : List Task) (env : CycleEnv) : List Task × CycleCounts :=
  match findPendingIdx tasks with
  | none =>
    (tasks, { gatewayCalls := [], executed := [], saves := 0, idled := true })
  | some i =>
    match tasks[i]? with
    | none =>
      (tasks, { gatewayCalls := [], executed := [], saves := 0, idled := false })
    | some t =>
      let r := processTask t env
      (tasks.set i r.1, r.2)

/-- Iterating the loop over a list of per-cycle environments. -/
def runCycles : List Task → List CycleEnv → List Task
  | tasks, [] => tasks
  | tasks, e :: es => runCycles (runCycle tasks e).1 es

/-- All task-list states the loop passes through, the initial one included. -/
def statesOf : List Task → List CycleEnv → List (List Task)
  | tasks, [] => [tasks]
  | tasks, e :: es => tasks :: statesOf (runCycle tasks e).1 es

/-! ## Supporting lemmas -/

theorem isPrefixL_self_append (p y : List Char) : isPrefixL p (p ++ y) = true := by
  induction p with
  | nil => rfl
  | cons a as ih => simp [isPrefixL, ih]

theorem containsSub_nil (hay : List Char) : containsSub [] hay = true := by
  cases hay <;> simp [containsSub, isPrefixL]

/-- Substring containment holds whenever the needle occurs literally in
the middle of the haystack. -/
theorem containsSub_mid (p x y : List Char) : containsSub p (x ++ p ++ y) = true := by
  induction x with
  | nil =>
    simp only [List.nil_append]
    cases p with
    | nil => simpa using containsSub_nil y
    | cons a as =>
      show containsSub (a :: as) (a :: (as ++ y)) = true
      simp only [containsSub]
      rw [← List.cons_append, isPrefixL_self_append]
      simp
  | cons c x ih =>
    show containsSub p (c :: (x ++ p ++ y)) = true
    simp only [containsSub, ih, Bool.or_true]

/-- Characterization of task selection: when it returns an index, that
index holds a pending task and every earlier index holds a non-pending
task. -/
theorem findPendingIdx_some :
    ∀ (ts : List Task) (i : Nat), findPendingIdx ts = some i →
      ∃ t, ts[i]? = some t ∧ t.status = some "pending" ∧
        ∀ j u, j < i → ts[j]? = some u → u.status ≠ some "pending" := by
  intro ts
  induction ts with
  | nil => intro i h; simp [findPendingIdx] at h
  | cons t ts ih =>
    intro i h
    unfold findPendingIdx at h
    by_cases hs : t.status = some "pending"
    · rw [if_pos hs] at h
      cases h
      exact ⟨t, by simp, hs, by intro j u hj; omega⟩
    · rw [if_neg hs] at h
      cases hrec : findPendingIdx ts with
      | none => rw [hrec] at h; cases h
      | some i0 =>
        rw [hrec] at h
        simp only [Option.map_some'] at h
        cases h
        obtain ⟨u, hu, hup, hbefore⟩ := ih i0 hrec
        refine ⟨u, by simpa using hu, hup, ?_⟩
        intro j v hj hv
        cases j with
        | zero =>
          simp only [List.getElem?_cons_zero] at hv
          cases hv
          exact hs
        | succ j0 =>
          simp only [List.getElem?_cons_succ] at hv
          exact hbefore j0 v (by omega) hv

/-- Task selection returns `none` exactly when no task is pending. -/
theorem findPendingIdx_none_iff (ts : List Task) :
    findPendingIdx ts = none ↔ ∀ t ∈ ts, t.status ≠ some "pending" := by
  induction ts with
  | nil => simp [findPendingIdx]
  | cons t ts ih =>
    unfold findPendingIdx
    by_cases hs : t.status = some "pending"
    · rw [if_pos hs]
      simp [hs]
    · rw [if_neg hs]
      constructor
      · intro h u hu
        rcases List.mem_cons.mp hu with h1 | h1
        · subst h1; exact hs
        · exact (ih.mp (by simpa using h)) u h1
      · intro h
        have : findPendingIdx ts = none := ih.mpr fun u hu => h u (List.mem_cons_of_mem _ hu)
        simp [this]

theorem getElem?_set_other {α : Type} :
    ∀ (l : List α) (i j : Nat) (a : α), i ≠ j → (l.set i a)[j]? = l[j]? := by
  intro l
  induction l with
  | nil => intro i j a _; simp
  | cons x xs ih =>
    intro i j a hij
    cases i with
    | zero =>
      cases j with
      | zero => exact absurd rfl hij
      | succ j0 => simp [List.set]
    | succ i0 =>
      cases j with
      | zero => simp [List.set]
      | succ j0 =>
        simp only [List.set, List.getElem?_cons_succ]
        exact ih i0 j0 a (by omega)

theorem set_self_eq {α : Type} :
    ∀ (l : List α) (i : Nat) (a : α), l[i]? = some a → l.set i a = l := by
  intro l
  induction l with
  | nil => intro i a h; simp at h
  | cons x xs ih =>
    intro i a h
    cases i with
    | zero =>
      simp only [List.getElem?_cons_zero] at h
      cases h
      rfl
    | succ i0 =>
      simp only [List.getElem?_cons_succ] at h
      simp [List.set, ih i0 a h]

/-- When selection finds a pending task at index `i`, one iteration is the
body `processTask` applied at that index. -/
theorem runCycle_selected (tasks : List Task) (env : CycleEnv) (i : Nat) (t : Task)
    (hsel : findPendingIdx tasks = some i) (ht : tasks[i]? = some t) :
    runCycle tasks env = (tasks.set i (processTask t env).1, (processTask t env).2) := by
  simp only [runCycle, hsel, ht]

/-- A non-pending task is never the one selection returns. -/
theorem settled_not_selected (tasks : List Task) (j : Nat) (t : Task)
    (ht : tasks[j]? = some t) (hnp : t.status ≠ some "pending") :
    findPendingIdx tasks ≠ some j := by
  intro hsel
  obtain ⟨u, hu, hup, _⟩ := findPendingIdx_some tasks j hsel
  rw [ht] at hu
  cases Option.some.inj hu
  exact hnp hup

/-- One iteration never touches a task that is not pending: only the
selected index is written, and the selected task is pending. -/
theorem runCycle_preserves_settled (tasks : List Task) (env : CycleEnv) (j : Nat) (t : Task)
    (ht : tasks[j]? = some t) (hnp : t.status ≠ some "pending") :
    ((runCycle tasks env).1)[j]? = some t := by
  cases hsel : findPendingIdx tasks with
  | none =>
    simp only [runCycle, hsel]
    exact ht
  | some i =>
    obtain ⟨u, hu, hup, _⟩ := findPendingIdx_some tasks i hsel
    have hij : i ≠ j := by
      intro he
      subst he
      rw [ht] at hu
      cases Option.some.inj hu
      exact hnp hup
    simp only [runCycle, hsel, hu]
    rw [getElem?_set_other tasks i j _ hij]
    exact ht

/-! ## Concrete sample data for witnesses -/

/-- A task already marked done. -/
def sampleDone : Task :=
  { id := "t0", goal := "Sort a list of numbers", status := some "done",
    retries := none, last_result := some "ok", completed_at := some "2026-10-12 00:00:00" }

/-- A pending task with a harmless goal. -/
def samplePending : Task :=
  { id := "t1", goal := "Write a function that reverses a string",
    status := some "pending", retries := none, last_result := none, completed_at := none }

/-- A pending task whose goal mentions the framework trigger phrase in capitals. -/
def sampleSkipGoal : Task :=
  { id := "t2", goal := "Redesign the FRAMEWORK layer", status := some "pending",
    retries := none, last_result := none, completed_at := none }

/-- A task already marked skipped. -/
def sampleSkipped : Task :=
  { id := "t3", goal := "Port everything", status := some "skipped",
    retries := none, last_result := none, completed_at := none }

/-- An iteration environment whose review reply is COMPLETE. -/
def envComplete : CycleEnv :=
  { supervisor_output := "Plan: implement reverse and test it",
    coder_output := "```python\nprint(1)\n```",
    exec := SubprocResult.completed "1\n" "",
    review := "COMPLETE", now := "2026-10-12 00:00:01" }

/-- An iteration environment whose review reply asks for improvement. -/
def envImprove : CycleEnv :=
  { supervisor_output := "Plan: implement reverse and test it",
    coder_output := "```python\nprint(1)\n```",
    exec := SubprocResult.completed "1\n" "",
    review := "IMPROVE: add error handling", now := "2026-10-12 00:00:01" }

/-- An iteration environment whose coder reply holds no extractable code. -/
def envNoCode : CycleEnv :=
  { supervisor_output := "Plan: implement reverse and test it",
    coder_output := "I am unable to help with that request.",
    exec := SubprocResult.completed "" "",
    review := "COMPLETE", now := "2026-10-12 00:00:01" }

/-- An iteration environment whose supervisor plan invokes the architect sentinel. -/
def envVeto : CycleEnv :=
  { supervisor_output := "ARCHITECT_REQUIRED: this change is structural",
    coder_output := "```python\nprint(1)\n```",
    exec := SubprocResult.completed "1\n" "",
    review := "COMPLETE", now := "2026-10-12 00:00:01" }

/-! ## The claims -/

/-- C1: for every review reply, a reply containing the token COMPLETE
(case-insensitively) sets the selected task to done and populates
last_result and completed_at; any other reply — the IMPROVE pattern or
anything else — leaves status pending and increments retries by exactly
one from its previous value (0 when the field is absent), with no crash
on ambiguous replies (the transition is total). -/
theorem review_parsing_spec (tasks : List Task) (env : CycleEnv) (i : Nat)
    (t : Task) (code : String)
    (hsel : findPendingIdx tasks = some i) (ht : tasks[i]? = some t)
    (hg : goalGuard t.goal = false)
    (ha : containsSub ("ARCHITECT_REQUIRED".toList) env.supervisor_output.toList = false)
    (hc : extract_code env.coder_output = some code) :
    t.status = some "pending"
    ∧ (containsSub ("COMPLETE".toList) (upperL env.review.toList) = true →
        runCycle tasks env =
          (tasks.set i { t with status := some "done",
                                last_result := some (run_python_result env.exec),
                                completed_at := some env.now },
           { gatewayCalls := ["supervisor", "coder", "supervisor"],
             executed := [code], saves := 1, idled := false }))
    ∧ (containsSub ("COMPLETE".toList) (upperL env.review.toList) = false →
        runCycle tasks env =
          (tasks.set i { t with retries := some (t.retries.getD 0 + 1) },
           { gatewayCalls := ["supervisor", "coder", "supervisor"],
             executed := [code], saves := 1, idled := false })) := by
  obtain ⟨u, hu, hup, _⟩ := findPendingIdx_some tasks i hsel
  rw [ht] at hu
  cases Option.some.inj hu
  refine ⟨hup, ?_, ?_⟩
  · intro hr
    rw [runCycle_selected tasks env i t hsel ht]
    simp only [processTask, hg, ha, hc, hr]
  · intro hr
    rw [runCycle_selected tasks env i t hsel ht]
    simp only [processTask, hg, ha, hc, hr]

theorem review_parsing_spec_witness :
    runCycle [samplePending] envComplete =
      ([samplePending].set 0 { samplePending with
                               status := some "done",
                               last_result := some (run_python_result envComplete.exec),
                               completed_at := some envComplete.now },
       { gatewayCalls := ["supervisor", "coder", "supervisor"],
         executed := ["print(1)"], saves := 1, idled := false })
    ∧ runCycle [samplePending] envImprove =
      ([samplePending].set 0 { samplePending with
                               retries := some (samplePending.retries.getD 0 + 1) },
       { gatewayCalls := ["supervisor", "coder", "supervisor"],
         executed := ["print(1)"], saves := 1, idled := false }) :=
  ⟨(review_parsing_spec [samplePending] envComplete 0 samplePending "print(1)"
      (by decide) (by decide) (by decide) (by decide) (by decide)).2.1 (by decide),
   (review_parsing_spec [samplePending] envImprove 0 samplePending "print(1)"
      (by decide) (by decide) (by decide) (by decide) (by decide)).2.2 (by decide)⟩

/-- C2: each cycle selects the first task in declaration order whose
status is pending (everything before the selected index is non-pending);
when no pending task exists, the iteration makes no model-gateway call and
no executor call, saves nothing, and instead idles (sleeps) before the
loop restarts at configuration reload. -/
theorem task_selection_spec (tasks : List Task) (env : CycleEnv) :
    (∀ i t, findPendingIdx tasks = some i → tasks[i]? = some t →
      t.status = some "pending" ∧
        ∀ j u, j < i → tasks[j]? = some u → u.status ≠ some "pending")
    ∧ ((∀ t ∈ tasks, t.status ≠ some "pending") →
        runCycle tasks env =
          (tasks, { gatewayCalls := [], executed := [], saves := 0, idled := true })) := by
  constructor
  · intro i t hsel ht
    obtain ⟨u, hu, hup, hbefore⟩ := findPendingIdx_some tasks i hsel
    rw [ht] at hu
    cases Option.some.inj hu
    exact ⟨hup, hbefore⟩
  · intro h
    have hnone : findPendingIdx tasks = none := (findPendingIdx_none_iff tasks).mpr h
    simp only [runCycle, hnone]

theorem task_selection_spec_witness :
    (samplePending.status = some "pending" ∧ sampleDone.status ≠ some "pending")
    ∧ runCycle [sampleDone] envComplete =
        ([sampleDone], { gatewayCalls := [], executed := [], saves := 0, idled := true }) := by
  constructor
  · have h := (task_selection_spec [sampleDone, samplePending] envComplete).1 1 samplePending
      (by decide) (by decide)
    exact ⟨h.1, h.2 0 sampleDone (by decide) (by decide)⟩
  · exact (task_selection_spec [sampleDone] envComplete).2 (by decide)

/-- C3: when the selected goal contains either trigger phrase of the
architectural guard (case-insensitively), the task is marked skipped and
the iteration ends with zero model-gateway calls; in particular any goal
containing the word framework in any letter case trips the guard. -/
theorem architectural_guard_spec (tasks : List Task) (env : CycleEnv) (i : Nat) (t : Task)
    (hsel : findPendingIdx tasks = some i) (ht : tasks[i]? = some t) :
    (goalGuard t.goal = true →
      runCycle tasks env =
        (tasks.set i { t with status := some "skipped" },
         { gatewayCalls := [], executed := [], saves := 1, idled := false }))
    ∧ (∀ a w b : List Char, t.goal.toList = a ++ w ++ b →
        lowerL w = "framework".toList → goalGuard t.goal = true) := by
  constructor
  · intro hg
    rw [runCycle_selected tasks env i t hsel ht]
    simp only [processTask, hg]
  · intro a w b hsplit hlow
    unfold goalGuard
    have hmap : lowerL (a ++ w ++ b) = lowerL a ++ lowerL w ++ lowerL b := by
      simp [lowerL]
    have : lowerL t.goal.toList = lowerL a ++ ("framework".toList) ++ lowerL b := by
      rw [hsplit, hmap, hlow]
    rw [this, containsSub_mid]
    simp

theorem architectural_guard_spec_witness :
    runCycle [sampleSkipGoal] envComplete =
      ([sampleSkipGoal].set 0 { sampleSkipGoal with status := some "skipped" },
       { gatewayCalls := [], executed := [], saves := 1, idled := false })
    ∧ goalGuard sampleSkipGoal.goal = true := by
  have h := architectural_guard_spec [sampleSkipGoal] envComplete 0 sampleSkipGoal
    (by decide) (by decide)
  have hg : goalGuard sampleSkipGoal.goal = true :=
    h.2 ("Redesign the ".toList) ("FRAMEWORK".toList) (" layer".toList) (by decide) (by decide)
  exact ⟨h.1 hg, hg⟩

/-- C7: when the supervisor plan contains the sentinel ARCHITECT_REQUIRED,
the selected task is marked skipped and the iteration ends after the single
supervisor gateway call — no coder call and no execution. -/
theorem supervisor_veto_spec (tasks : List Task) (env : CycleEnv) (i : Nat) (t : Task)
    (hsel : findPendingIdx tasks = some i) (ht : tasks[i]? = some t)
    (hg : goalGuard t.goal = false)
    (ha : containsSub ("ARCHITECT_REQUIRED".toList) env.supervisor_output.toList = true) :
    runCycle tasks env =
      (tasks.set i { t with status := some "skipped" },
       { gatewayCalls := ["supervisor"], executed := [], saves := 1, idled := false }) := by
  rw [runCycle_selected tasks env i t hsel ht]
  simp only [processTask, hg, ha]

theorem supervisor_veto_spec_witness :
    runCycle [samplePending] envVeto =
      ([samplePending].set 0 { samplePending with status := some "skipped" },
       { gatewayCalls := ["supervisor"], executed := [], saves := 1, idled := false }) :=
  supervisor_veto_spec [samplePending] envVeto 0 samplePending
    (by decide) (by decide) (by decide) (by decide)

/-- C9: when the coder output yields no extractable code, the task list is
returned unchanged — the selected task keeps status pending and its retries
field — nothing is executed and no state save happens on this path. -/
theorem no_code_frame_spec (tasks : List Task) (env : CycleEnv) (i : Nat) (t : Task)
    (hsel : findPendingIdx tasks = some i) (ht : tasks[i]? = some t)
    (hg : goalGuard t.goal = false)
    (ha : containsSub ("ARCHITECT_REQUIRED".toList) env.supervisor_output.toList = false)
    (hc : extract_code env.coder_output = none) :
    t.status = some "pending"
    ∧ runCycle tasks env =
        (tasks, { gatewayCalls := ["supervisor", "coder"], executed := [], saves := 0,
                  idled := false }) := by
  obtain ⟨u, hu, hup, _⟩ := findPendingIdx_some tasks i hsel
  rw [ht] at hu
  cases Option.some.inj hu
  refine ⟨hup, ?_⟩
  rw [runCycle_selected tasks env i t hsel ht]
  simp only [processTask, hg, ha, hc]
  rw [set_self_eq tasks i t ht]

theorem no_code_frame_spec_witness :
    samplePending.status = some "pending"
    ∧ runCycle [samplePending] envNoCode =
        ([samplePending], { gatewayCalls := ["supervisor", "coder"], executed := [], saves := 0,
                            idled := false }) :=
  no_code_frame_spec [samplePending] envNoCode 0 samplePending
    (by decide) (by decide) (by decide) (by decide) (by decide)

/-- C8: invariant — once a task is done or skipped, every later state of
the loop holds that task unchanged at the same index (id, status and all
other fields), and task selection never returns that index again. -/
theorem done_skipped_frozen (tasks : List Task) (envs : List CycleEnv) (j : Nat) (t : Task)
    (ht : tasks[j]? = some t)
    (hs : t.status = some "done" ∨ t.status = some "skipped") :
    ∀ s ∈ statesOf tasks envs, s[j]? = some t ∧ findPendingIdx s ≠ some j := by
  have hnp : t.status ≠ some "pending" := by
    rcases hs with h | h <;> simp [h]
  clear hs
  revert ht
  revert tasks
  induction envs with
  | nil =>
    intro tasks ht s hsmem
    simp only [statesOf, List.mem_singleton] at hsmem
    subst hsmem
    exact ⟨ht, settled_not_selected _ j t ht hnp⟩
  | cons e es ih =>
    intro tasks ht s hsmem
    simp only [statesOf, List.mem_cons] at hsmem
    rcases hsmem with h1 | h1
    · subst h1
      exact ⟨ht, settled_not_selected _ j t ht hnp⟩
    · exact ih (runCycle tasks e).1 (runCycle_preserves_settled tasks e j t ht hnp) s h1

theorem done_skipped_frozen_witness :
    ((runCycle [sampleSkipped, samplePending] envComplete).1)[0]? = some sampleSkipped
    ∧ findPendingIdx (runCycle [sampleSkipped, samplePending] envComplete).1 ≠ some 0 :=
  done_skipped_frozen [sampleSkipped, samplePending] [envComplete] 0 sampleSkipped
    (by decide) (Or.inr rfl) (runCycle [sampleSkipped, samplePending] envComplete).1
    (by decide)

/-- C4: extract_code returns the trimmed body of the last fenced region
when the fence scan finds at least one region; with no region it returns
the whole trimmed text when a print/import/file-open marker substring is
present, and no-code-found (none) otherwise. -/
theorem extract_code_spec (text : String) :
    (∀ b, (findBlocks text.toList).getLast? = some b →
        extract_code text = some ⟨stripChars b⟩)
    ∧ (findBlocks text.toList = [] → hasMarker text = true →
        extract_code text = some (pyStrip text))
    ∧ (findBlocks text.toList = [] → hasMarker text = false →
        extract_code text = none) := by
  refine ⟨?_, ?_, ?_⟩
  · intro b hb
    simp only [extract_code, hb]
  · intro hb hm
    simp only [extract_code, hb, hm, List.getLast?_nil, if_true]
  · intro hb hm
    simp only [extract_code, hb, hm, List.getLast?_nil, Bool.false_eq_true, if_false]

theorem extract_code_spec_witness :
    extract_code "intro\n```python\nfirst\n```\nthen\n```\nsecond\n```\nend" =
      some ⟨stripChars ("second\n".toList)⟩
    ∧ extract_code "with open(\"f\") as f: pass" =
        some (pyStrip "with open(\"f\") as f: pass")
    ∧ extract_code "hello world" = none :=
  ⟨(extract_code_spec "intro\n```python\nfirst\n```\nthen\n```\nsecond\n```\nend").1
      ("second\n".toList) (by decide),
   (extract_code_spec "with open(\"f\") as f: pass").2.1 (by decide) (by decide),
   (extract_code_spec "hello world").2.2 (by decide) (by decide)⟩

/-- C10: the fence scan accepts an opening fence exactly when the three
backticks are immediately followed by a newline, optionally with the exact
tag python in between; a fence with any other tag (for example js) or with
no newline after the tag is not a fenced region and such input falls
through to the marker fallback or to none. -/
theorem fence_syntax_spec :
    (∀ cs : List Char,
      (matchOpen cs).isSome = (isPrefixL fencePlain cs || isPrefixL fencePy cs))
    ∧ extract_code "```js\nfoo\n```" = none
    ∧ extract_code "```js\nprint(1)\n```" = some "```js\nprint(1)\n```"
    ∧ extract_code "```python x```" = none := by
  refine ⟨?_, by decide, by decide, by decide⟩
  intro cs
  unfold matchOpen
  by_cases h1 : isPrefixL fencePy cs = true
  · simp [h1]
  · by_cases h2 : isPrefixL fencePlain cs = true
    · simp [h1, h2]
    · simp [h1, h2]

/-- C5: the executor turns a timeout or a launch failure into the
stringified failure reason returned as the result string — the transition
is a total function, never a propagated exception. -/
theorem executor_failure_as_data (r : SubprocResult) (m : String)
    (h : r = SubprocResult.timedOut m ∨ r = SubprocResult.launchError m) :
    run_python_result r = m := by
  rcases h with h | h <;> subst h <;> rfl

theorem executor_failure_as_data_witness :
    run_python_result (SubprocResult.timedOut "Command timed out after 20 seconds") =
      "Command timed out after 20 seconds" :=
  executor_failure_as_data _ _ (Or.inl rfl)

/-- C6 (amended): the pipeline executor in src/run_pipeline.py returns the
captured standard output concatenated with the captured standard error on
completion; the variant in src/tools/run_python.py returns the captured
standard output only. -/
theorem executor_result_concat (stdout stderr : String) :
    run_python_result (SubprocResult.completed stdout stderr) = stdout ++ stderr
    ∧ tools_run_python stdout stderr = stdout :=
  ⟨rfl, rfl⟩

/-- C6 counterexample: the claim that the src/tools/run_python.py variant
also returns stdout concatenated with stderr is false — with stdout "ok"
and stderr "Traceback" it returns "ok" alone. -/
theorem tools_run_python_drops_stderr :
    ¬ (tools_run_python "ok" "Traceback" = "ok" ++ "Traceback") := by
  decide
